import Mathlib

/-!
# Verification of the Prusa-Firmware real-time primitives excerpt

Shallow embedding of `src/Firmware/Timer.cpp` (the wraparound-safe timer) and
`src/Firmware/uart2.cpp` (the asynchronous byte channel glue), together with
the single-producer/single-consumer ring buffer, which is modelled from the
specification because `rbuf.c` is not part of the excerpt (only its callers
in `uart2.cpp` are).

Machine integers of width `w` are represented as natural numbers reduced
modulo `2^w`; every operation reduces its operands, matching unsigned
fixed-width arithmetic in C.  Side-effecting C member functions become
state-passing Lean functions returning the new state together with the
C return value.  The free-running counter (`_millis()`) is passed to each
operation explicitly as `now`.
-/

namespace Prusa

/-- Wraparound-safe unsigned subtraction in a `w`-bit type:
`a - b` computed modulo `2^w`, the forward distance from `b` to `a`. -/
def wsub (w a b : Nat) : Nat :=
  (a % 2 ^ w + (2 ^ w - b % 2 ^ w)) % 2 ^ w

/-- State of `Timer<T>` from `Timer.cpp`: the counter value recorded at
`start()` and the running flag. -/
structure Timer (w : Nat) where
  m_started : Nat
  m_isRunning : Bool
  deriving Repr, DecidableEq

/-- Embedding of `Timer<T>::start()`: records the current counter value (`_millis()`,
passed here explicitly as `now`) and sets the running flag. -/
def Timer.start (_t : Timer w) (now : Nat) : Timer w :=
  { m_started := now % 2 ^ w, m_isRunning := true }

/-- Embedding of `Timer<T>::expired(msPeriod)` from `Timer.cpp` lines 32–54, with the
current counter value `now` passed explicitly.  Returns the updated timer
state and the boolean result.  All arithmetic is `w`-bit unsigned:
`m_started + msPeriod` and the comparisons happen modulo `2^w`, exactly as
in the C source. -/
def Timer.expired (t : Timer w) (msPeriod now : Nat) : Timer w × Bool :=
  if !t.m_isRunning then (t, false)
  else
    let M := 2 ^ w
    let s := t.m_started % M
    let n := now % M
    let sp := (s + msPeriod % M) % M
    let e : Bool :=
      if s ≤ sp then decide (sp ≤ n) || decide (n < s)
      else decide (sp ≤ n) && decide (n < s)
    ({ t with m_isRunning := if e then false else t.m_isRunning }, e)

/-- Embedding of `Timer<T>::elapsed()` from `Timer.cpp` lines 64–67: `0` when not
running, otherwise `_millis() - m_started` in `w`-bit arithmetic.  The C
function performs no assignment, so the embedding is a pure function of the
state. -/
def Timer.elapsed (t : Timer w) (now : Nat) : Nat :=
  if t.m_isRunning then wsub w now t.m_started else 0

/-- Embedding of `Timer<T>::expired_cont(msPeriod)` from `Timer.cpp` lines 69–73:
`!m_isRunning || expired(msPeriod)` with C short-circuit evaluation, so
`expired` is only invoked when the timer is running. -/
def Timer.expired_cont (t : Timer w) (msPeriod now : Nat) : Timer w × Bool :=
  if !t.m_isRunning then (t, true)
  else t.expired msPeriod now

/-- A sequence of `expired` calls with no intervening `start()`: each query
is a pair `(msPeriod, now)`; the state is threaded through and the list of
boolean results is collected. -/
def Timer.expiredSeq (t : Timer w) : List (Nat × Nat) → Timer w × List Bool
  | [] => (t, [])
  | q :: qs =>
      let r := t.expired q.1 q.2
      let rest := r.1.expiredSeq qs
      (rest.1, r.2 :: rest.2)

/-- Modelled from the spec: the single-producer/single-consumer ring buffer
(`rbuf.c`/`rbuf.h` are not part of the excerpt; `uart2.cpp` only calls
`rbuf_ini`/`rbuf_empty`/`rbuf_put`/`rbuf_get`).  Backing storage of fixed
capacity `cap` with a write position and a read position, each advanced
modulo `cap`; one slot is kept reserved to disambiguate full from empty. -/
structure RBuf where
  cap : Nat
  data : Nat → Nat
  wpos : Nat
  rpos : Nat

/-- Well-formedness of a ring-buffer state: capacity at least the minimum
viable size (one reserved slot plus one usable slot) and both positions in
range. -/
def RBuf.Inv (b : RBuf) : Prop :=
  2 ≤ b.cap ∧ b.wpos < b.cap ∧ b.rpos < b.cap

/-- Modelled from the spec: `isEmpty` — true iff the read position equals
the write position. -/
def rbuf_empty (b : RBuf) : Bool :=
  b.rpos == b.wpos

/-- Modelled from the spec: the buffer is full when advancing the write
position by one would equal the read position (one reserved slot). -/
def rbuf_full (b : RBuf) : Bool :=
  (b.wpos + 1) % b.cap == b.rpos

/-- Modelled from the spec: `put` — on a full buffer reports failure
(`false`, the C code signals this with a negative return) and performs no
mutation; otherwise stores the byte at the write position and advances the
write position modulo capacity. -/
def rbuf_put (b : RBuf) (x : Nat) : RBuf × Bool :=
  if rbuf_full b then (b, false)
  else
    ({ b with
        data := fun i => if i = b.wpos then x else b.data i,
        wpos := (b.wpos + 1) % b.cap }, true)

/-- Modelled from the spec: `get` — returns nothing if empty; otherwise
returns the byte at the read position and advances the read position modulo
capacity. -/
def rbuf_get (b : RBuf) : RBuf × Option Nat :=
  if rbuf_empty b then (b, none)
  else ({ b with rpos := (b.rpos + 1) % b.cap }, some (b.data b.rpos))

/-- Number of bytes currently stored: forward distance from the read
position to the write position, modulo capacity. -/
def RBuf.size (b : RBuf) : Nat :=
  (b.wpos + b.cap - b.rpos) % b.cap

/-- Abstraction function: the stored bytes in FIFO order, oldest first. -/
def RBuf.contents (b : RBuf) : List Nat :=
  (List.range b.size).map fun i => b.data ((b.rpos + i) % b.cap)

/-- One operation on the byte channel: a producer `put` (one interrupt
firing delivering a byte) or a consumer `get`. -/
inductive ChanOp where
  | put : Nat → ChanOp
  | get : ChanOp

/-- Run a sequence of operations against a ring buffer; returns the final
buffer and the bytes returned by the successful `get` calls, in order. -/
def runOps (b : RBuf) : List ChanOp → RBuf × List Nat
  | [] => (b, [])
  | ChanOp.put x :: ops => runOps (rbuf_put b x).1 ops
  | ChanOp.get :: ops =>
      let r := rbuf_get b
      let rest := runOps r.1 ops
      (rest.1, r.2.toList ++ rest.2)

/-- The bytes whose `put` was accepted (no overflow), in order. -/
def acceptedPuts (b : RBuf) : List ChanOp → List Nat
  | [] => []
  | ChanOp.put x :: ops =>
      (if (rbuf_put b x).2 then [x] else []) ++ acceptedPuts (rbuf_put b x).1 ops
  | ChanOp.get :: ops => acceptedPuts (rbuf_get b).1 ops

/-- All bytes offered by `put` operations, accepted or not. -/
def allPuts : List ChanOp → List Nat
  | [] => []
  | ChanOp.put x :: ops => x :: allPuts ops
  | ChanOp.get :: ops => allPuts ops

/-- Number of `put` operations in a sequence. -/
def putCount : List ChanOp → Nat
  | [] => 0
  | ChanOp.put _ :: ops => putCount ops + 1
  | ChanOp.get :: ops => putCount ops

/-- Embedding of `ISR(USART2_RX_vect)` from `uart2.cpp` lines 43–49: attempts one `put`
of the received byte (`UDR2`); when `put` reports full, emits the
diagnostic `"USART2 rx Full!!!"` (the returned boolean records whether the
diagnostic was emitted) and the byte is discarded. -/
def usart2_rx_isr (b : RBuf) (udr2 : Nat) : RBuf × Bool :=
  let r := rbuf_put b udr2
  (r.1, !r.2)

/-- Embedding of `uart2_getchar` from `uart2.cpp` lines 24–28: returns `-1` when the
inbound buffer is empty, otherwise delegates to `rbuf_get`. -/
def uart2_getchar (b : RBuf) : RBuf × Int :=
  if rbuf_empty b then (b, -1)
  else
    let r := rbuf_get b
    (r.1, match r.2 with
          | some x => (x : Int)
          | none => -1)

/-- The spin loop of `uart2_putchar` (`while (!uart2_txready);`): starting
at tick `i`, with `fuel` remaining loop iterations, returns the first tick
at which the ready signal is true, or `none` if the fuel runs out while the
signal stays false.  The ready signal is modelled as a function of the loop
iteration count. -/
def spinWait (ready : Nat → Bool) : Nat → Nat → Option Nat
  | 0, _ => none
  | fuel + 1, i => if ready i then some i else spinWait ready fuel (i + 1)

/-- Embedding of `uart2_putchar` from `uart2.cpp` lines 15–22: spins until the
ready-to-transmit signal of the transport (`UCSR2A & (1 << UDRE2)`) is true,
then performs the single write `UDR2 = c`.  The result records the tick of
that write and the byte written; `none` means the loop was still spinning
when the observation budget (`fuel`) ran out — the C function has not
returned. -/
def uart2_putchar (ready : Nat → Bool) (c : Nat) (fuel : Nat) : Option (Nat × Nat) :=
  (spinWait ready fuel 0).map fun t => (t, c)

/-! ## Basic arithmetic lemmas -/

/-- A value `a < 2*M` reduces modulo `M` by at most one subtraction. -/
theorem mod_eq_if_of_lt_two_mul {a M : Nat} (h : a < 2 * M) :
    a % M = if a < M then a else a - M := by
  split
  · exact Nat.mod_eq_of_lt (by omega)
  · rw [Nat.mod_eq_sub_mod (by omega)]
    exact Nat.mod_eq_of_lt (by omega)

/-- Characterisation of the wraparound subtraction for reduced operands. -/
theorem wsub_eq {w a b : Nat} (ha : a < 2 ^ w) (hb : b < 2 ^ w) :
    wsub w a b = if b ≤ a then a - b else a + 2 ^ w - b := by
  have hM : 0 < 2 ^ w := Nat.pos_pow_of_pos w (by omega)
  unfold wsub
  rw [Nat.mod_eq_of_lt ha, Nat.mod_eq_of_lt hb]
  rw [mod_eq_if_of_lt_two_mul (by omega)]
  split <;> split <;> omega

/-- Adding distinct offsets below the modulus to a common base gives
distinct residues. -/
theorem add_mod_inj {M r i j : Nat} (hi : i < M) (hj : j < M)
    (h : (r + i) % M = (r + j) % M) : i = j := by
  have h2 : i % M = j % M := Nat.ModEq.add_left_cancel' r h
  rwa [Nat.mod_eq_of_lt hi, Nat.mod_eq_of_lt hj] at h2

/-! ## Timer lemmas -/

/-- The boolean result of `expired` agrees with the specification formula:
the timer is running and the wraparound forward distance from `m_started`
to `now` is at least the period. -/
theorem expired_iff_spec {w : Nat} (t : Timer w) (p now : Nat)
    (hs : t.m_started < 2 ^ w) (hp : p < 2 ^ w) (hn : now < 2 ^ w) :
    ((t.expired p now).2 = true ↔
      (t.m_isRunning = true ∧ p ≤ wsub w now t.m_started)) := by
  have hM : 0 < 2 ^ w := Nat.pos_pow_of_pos w (by omega)
  unfold Timer.expired
  cases hr : t.m_isRunning with
  | false => simp [hr]
  | true =>
    simp only [hr, Bool.not_true, Bool.false_eq_true, if_false]
    rw [Nat.mod_eq_of_lt hs, Nat.mod_eq_of_lt hp, Nat.mod_eq_of_lt hn]
    rw [mod_eq_if_of_lt_two_mul (by omega)]
    rw [wsub_eq hn hs]
    split <;> split <;>
      simp only [Bool.or_eq_true, Bool.and_eq_true, decide_eq_true_iff] <;>
      (try split) <;>
      exact ⟨fun h => ⟨trivial, by omega⟩, fun h => by rcases h with ⟨-, h2⟩; omega⟩

/-- Running `expired` on a stopped timer returns `false` and does not change the
state. -/
theorem expired_of_not_running {w : Nat} (t : Timer w) (p now : Nat)
    (h : t.m_isRunning = false) : t.expired p now = (t, false) := by
  unfold Timer.expired
  simp [h]

/-- The call `expired` never changes `m_started`. -/
theorem expired_started {w : Nat} (t : Timer w) (p now : Nat) :
    (t.expired p now).1.m_started = t.m_started := by
  unfold Timer.expired
  split <;> rfl

/-- The state after `expired` is the old state with the running flag
cleared exactly when the call returned `true`. -/
theorem expired_eq_mk {w : Nat} (t : Timer w) (p n : Nat) :
    (t.expired p n).1 =
      { t with m_isRunning := if (t.expired p n).2 then false else t.m_isRunning } := by
  unfold Timer.expired
  split
  · simp
  · rfl

/-- A call to `expired` that returns `false` leaves the state unchanged. -/
theorem expired_false_frame {w : Nat} (t : Timer w) (p now : Nat)
    (h : (t.expired p now).2 = false) : (t.expired p now).1 = t := by
  rw [expired_eq_mk, h]
  simp

/-- A call to `expired` that returns `true` clears the running flag and
keeps `m_started`. -/
theorem expired_true_frame {w : Nat} (t : Timer w) (p now : Nat)
    (h : (t.expired p now).2 = true) :
    (t.expired p now).1 = { t with m_isRunning := false } := by
  rw [expired_eq_mk, h]
  simp

/-- On a running timer a zero period expires at any counter value. -/
theorem expired_zero_true {w : Nat} (t : Timer w) (n : Nat)
    (h : t.m_isRunning = true) : (t.expired 0 n).2 = true := by
  unfold Timer.expired
  simp only [h, Bool.not_true, Bool.false_eq_true, if_false]
  have hmm : t.m_started % 2 ^ w % 2 ^ w = t.m_started % 2 ^ w :=
    Nat.mod_mod_of_dvd _ dvd_rfl
  simp only [Nat.zero_mod, Nat.add_zero, hmm, le_refl, if_pos]
  rcases le_or_lt (t.m_started % 2 ^ w) (n % 2 ^ w) with hc | hc <;> simp [hc]

/-- A stopped timer reports no expiry over any query sequence. -/
theorem expiredSeq_count_notRunning {w : Nat} (t : Timer w)
    (qs : List (Nat × Nat)) (h : t.m_isRunning = false) :
    ((t.expiredSeq qs).2).count true = 0 := by
  induction qs generalizing t with
  | nil => simp [Timer.expiredSeq]
  | cons q qs ih =>
    simp only [Timer.expiredSeq]
    rw [expired_of_not_running t q.1 q.2 h]
    simp [List.count_cons, ih t h]

/-- Over any query sequence, a timer reports expiry at most once. -/
theorem expiredSeq_count_le_one {w : Nat} (t : Timer w)
    (qs : List (Nat × Nat)) : ((t.expiredSeq qs).2).count true ≤ 1 := by
  induction qs generalizing t with
  | nil => simp [Timer.expiredSeq]
  | cons q qs ih =>
    simp only [Timer.expiredSeq]
    cases hr2 : (t.expired q.1 q.2).2 with
    | true =>
      have hstop : (t.expired q.1 q.2).1.m_isRunning = false := by
        rw [expired_true_frame t q.1 q.2 hr2]
      simp [List.count_cons, hr2, expiredSeq_count_notRunning _ qs hstop]
    | false =>
      simp [List.count_cons, hr2, ih]

/-! ## Claim theorems: Timer -/

/-- C1: `expired(p)` returns true iff the timer is running and the
wraparound forward distance `now - started` (unsigned subtraction in the
`w`-bit type) is at least `p`; the boundary is inclusive
(`now = started + p - 1` gives false, `now = started + p` gives true) and
wraparound is handled (16-bit timer started at 65530 with period 10 is
expired at counter value 4 but not at 3). -/
theorem C1_expired_characterisation :
    (∀ (w : Nat) (t : Timer w) (p now : Nat),
        t.m_started < 2 ^ w → p < 2 ^ w → now < 2 ^ w →
        ((t.expired p now).2 = true ↔
          (t.m_isRunning = true ∧ p ≤ wsub w now t.m_started)))
    ∧ (∀ (w s p : Nat), 0 < p → s + p < 2 ^ w →
        ((Timer.mk s true : Timer w).expired p (s + p - 1)).2 = false ∧
        ((Timer.mk s true : Timer w).expired p (s + p)).2 = true)
    ∧ ((Timer.mk 65530 true : Timer 16).expired 10 4).2 = true
    ∧ ((Timer.mk 65530 true : Timer 16).expired 10 3).2 = false := by
  refine ⟨fun w t p now hs hp hn => expired_iff_spec t p now hs hp hn,
          ?_, by decide, by decide⟩
  intro w s p hp hsp
  have hs : s < 2 ^ w := by omega
  constructor
  · rw [← Bool.not_eq_true]
    intro h
    have h2 := (expired_iff_spec (Timer.mk s true) p (s + p - 1) hs
      (by omega) (by omega)).mp h
    rw [wsub_eq (show s + p - 1 < 2 ^ w by omega) hs] at h2
    rcases h2 with ⟨-, h2⟩
    rw [if_pos (by omega : s ≤ s + p - 1)] at h2
    omega
  · refine (expired_iff_spec (Timer.mk s true) p (s + p) hs
      (by omega) (by omega)).mpr ⟨rfl, ?_⟩
    rw [wsub_eq (show s + p < 2 ^ w by omega) hs]
    rw [if_pos (by omega : s ≤ s + p)]
    omega

/-- Closed instance of C1: a 16-bit timer started at 100 with period 7 is
expired at counter value 107. -/
theorem C1_expired_characterisation_witness :
    ((Timer.mk 100 true : Timer 16).expired 7 107).2 = true :=
  (C1_expired_characterisation.1 16 (Timer.mk 100 true) 7 107
    (by decide) (by decide) (by decide)).mpr ⟨rfl, by decide⟩

/-- C2: expiry is edge-triggered: a call to `expired` that returns true
clears the running flag; over any sequence of `expired` calls with no
intervening `start()` the result is true at most once, and a stopped timer
reports false on every call. -/
theorem C2_edge_triggered :
    (∀ (w : Nat) (t : Timer w) (p n : Nat),
        (t.expired p n).2 = true → (t.expired p n).1.m_isRunning = false)
    ∧ (∀ (w : Nat) (t : Timer w) (qs : List (Nat × Nat)),
        ((t.expiredSeq qs).2).count true ≤ 1)
    ∧ (∀ (w : Nat) (t : Timer w) (qs : List (Nat × Nat)),
        t.m_isRunning = false → ((t.expiredSeq qs).2).count true = 0) := by
  refine ⟨fun w t p n h => ?_,
          fun w t qs => expiredSeq_count_le_one t qs,
          fun w t qs h => expiredSeq_count_notRunning t qs h⟩
  rw [expired_true_frame t p n h]

/-- Closed instance of C2: a running 8-bit timer that observes expiry goes
idle. -/
theorem C2_edge_triggered_witness :
    ((Timer.mk 0 true : Timer 8).expired 0 0).1.m_isRunning = false :=
  C2_edge_triggered.1 8 (Timer.mk 0 true) 0 0 (by decide)

/-- C7: `expired_cont(p)` returns true iff the timer is not running or the
underlying `expired(p)` call returns true, and its state effect is exactly
that of the underlying `expired` call. -/
theorem C7_expired_cont_spec :
    ∀ (w : Nat) (t : Timer w) (p now : Nat),
      t.expired_cont p now =
        ((t.expired p now).1, !t.m_isRunning || (t.expired p now).2) := by
  intro w t p now
  unfold Timer.expired_cont
  cases hr : t.m_isRunning with
  | false => rw [expired_of_not_running t p now hr]; simp
  | true => simp

/-- C8: `elapsed()` returns 0 when the timer is not running, and otherwise
the wraparound-safe forward distance `now - started`, independently of any
period; in particular a timer started at `now0` reads 5 at `now0 + 5`.
(The C function performs no assignment, so the embedding is pure and state
preservation holds by construction.) -/
theorem C8_elapsed_spec :
    (∀ (w : Nat) (t : Timer w) (now : Nat),
        t.m_isRunning = false → t.elapsed now = 0)
    ∧ (∀ (w : Nat) (t : Timer w) (now : Nat),
        t.m_isRunning = true → t.m_started < 2 ^ w → now < 2 ^ w →
        t.elapsed now =
          if t.m_started ≤ now then now - t.m_started
          else now + 2 ^ w - t.m_started)
    ∧ (∀ (w : Nat) (t : Timer w) (now0 : Nat), now0 + 5 < 2 ^ w →
        (t.start now0).elapsed (now0 + 5) = 5) := by
  refine ⟨fun w t now h => by simp [Timer.elapsed, h],
          fun w t now h hs hn => by rw [Timer.elapsed, if_pos h, wsub_eq hn hs],
          fun w t now0 h => ?_⟩
  have h0 : now0 < 2 ^ w := by omega
  simp only [Timer.start, Timer.elapsed, if_pos]
  rw [Nat.mod_eq_of_lt h0, wsub_eq h h0, if_pos (by omega)]
  omega

/-- Closed instance of C8: a stopped timer reads 0. -/
theorem C8_elapsed_spec_witness : (Timer.mk 3 false : Timer 8).elapsed 10 = 0 :=
  C8_elapsed_spec.1 8 (Timer.mk 3 false) 10 rfl

/-- C9: after `start()` at any counter value, the first `expired(0)` check
returns true at any counter value, and a second `expired(0)` call without
restarting returns false. -/
theorem C9_zero_period :
    ∀ (w : Nat) (t : Timer w) (now0 n1 n2 : Nat),
      ((t.start now0).expired 0 n1).2 = true ∧
      (((t.start now0).expired 0 n1).1.expired 0 n2).2 = false := by
  intro w t now0 n1 n2
  have h1 : ((t.start now0).expired 0 n1).2 = true :=
    expired_zero_true (t.start now0) n1 rfl
  refine ⟨h1, ?_⟩
  rw [expired_true_frame _ 0 n1 h1]
  rw [expired_of_not_running _ 0 n2 rfl]

/-- C10: a call to `expired` that returns false leaves the timer state
completely unchanged; `m_started` is never modified, and the only mutation
`expired` ever performs is clearing the running flag on the call that
returns true. -/
theorem C10_expired_frame :
    (∀ (w : Nat) (t : Timer w) (p n : Nat),
        (t.expired p n).2 = false → (t.expired p n).1 = t)
    ∧ (∀ (w : Nat) (t : Timer w) (p n : Nat),
        (t.expired p n).1.m_started = t.m_started)
    ∧ (∀ (w : Nat) (t : Timer w) (p n : Nat),
        (t.expired p n).2 = true →
        (t.expired p n).1 = { t with m_isRunning := false }) :=
  ⟨fun _ t p n h => expired_false_frame t p n h,
   fun _ t p n => expired_started t p n,
   fun _ t p n h => expired_true_frame t p n h⟩

/-- Closed instance of C10: an unexpired check leaves the timer intact. -/
theorem C10_expired_frame_witness :
    ((Timer.mk 5 true : Timer 8).expired 10 6).1 = Timer.mk 5 true :=
  C10_expired_frame.1 8 (Timer.mk 5 true) 10 6 (by decide)

/-! ## Ring-buffer lemmas -/

theorem RBuf.size_lt {b : RBuf} (h : b.Inv) : b.size < b.cap :=
  Nat.mod_lt _ (by rcases h with ⟨h1, -, -⟩; omega)

theorem RBuf.contents_length (b : RBuf) : b.contents.length = b.size := by
  simp [RBuf.contents]

/-- The buffer is empty exactly when no byte is stored. -/
theorem rbuf_empty_iff_size {b : RBuf} (h : b.Inv) :
    (rbuf_empty b = true ↔ b.size = 0) := by
  rcases h with ⟨h1, h2, h3⟩
  simp only [rbuf_empty, beq_iff_eq, RBuf.size]
  rw [mod_eq_if_of_lt_two_mul (by omega)]
  split <;> omega

/-- The buffer is empty exactly when the abstract contents are empty. -/
theorem rbuf_empty_iff_contents {b : RBuf} (h : b.Inv) :
    (rbuf_empty b = true ↔ b.contents = []) := by
  rw [rbuf_empty_iff_size h, ← RBuf.contents_length, List.length_eq_zero]

/-- The buffer is full exactly when the usable capacity (capacity minus the
reserved slot) is reached. -/
theorem rbuf_full_iff_size {b : RBuf} (h : b.Inv) :
    (rbuf_full b = true ↔ b.size = b.cap - 1) := by
  rcases h with ⟨h1, h2, h3⟩
  simp only [rbuf_full, beq_iff_eq, RBuf.size]
  rw [mod_eq_if_of_lt_two_mul (show b.wpos + 1 < 2 * b.cap by omega),
      mod_eq_if_of_lt_two_mul (show b.wpos + b.cap - b.rpos < 2 * b.cap by omega)]
  split <;> split <;> omega

theorem rbuf_full_false_iff {b : RBuf} (h : b.Inv) :
    (rbuf_full b = false ↔ b.size < b.cap - 1) := by
  have hiff := rbuf_full_iff_size h
  have hlt := RBuf.size_lt h
  rcases h with ⟨h1, -, -⟩
  cases hf : rbuf_full b <;> simp [hf] at hiff ⊢ <;> omega

/-- The write position is the read position advanced by the stored count. -/
theorem rpos_add_size {b : RBuf} (h : b.Inv) :
    (b.rpos + b.size) % b.cap = b.wpos := by
  rcases h with ⟨h1, h2, h3⟩
  rw [RBuf.size, Nat.add_mod_mod]
  have harg : b.rpos + (b.wpos + b.cap - b.rpos) = b.wpos + b.cap := by omega
  rw [harg, Nat.add_mod_right, Nat.mod_eq_of_lt h2]

theorem rbuf_put_full {b : RBuf} (x : Nat) (h : rbuf_full b = true) :
    rbuf_put b x = (b, false) := by
  rw [rbuf_put, if_pos h]

theorem rbuf_put_cap (b : RBuf) (x : Nat) : (rbuf_put b x).1.cap = b.cap := by
  rw [rbuf_put]; split <;> rfl

theorem rbuf_get_empty {b : RBuf} (h : rbuf_empty b = true) :
    rbuf_get b = (b, none) := by
  rw [rbuf_get, if_pos h]

theorem rbuf_get_cap (b : RBuf) : (rbuf_get b).1.cap = b.cap := by
  rw [rbuf_get]; split <;> rfl

/-- A successful `put` increments the stored count. -/
theorem rbuf_put_size {b : RBuf} (x : Nat) (h : b.Inv)
    (hf : rbuf_full b = false) : (rbuf_put b x).1.size = b.size + 1 := by
  have hsz : b.size < b.cap - 1 := (rbuf_full_false_iff h).mp hf
  rcases h with ⟨h1, h2, h3⟩
  rw [RBuf.size, mod_eq_if_of_lt_two_mul
    (show b.wpos + b.cap - b.rpos < 2 * b.cap by omega)] at hsz
  rw [rbuf_put, if_neg (by simp [hf])]
  simp only [RBuf.size]
  rw [mod_eq_if_of_lt_two_mul (show b.wpos + 1 < 2 * b.cap by omega)]
  split_ifs with hc
  · rw [mod_eq_if_of_lt_two_mul (by omega),
        mod_eq_if_of_lt_two_mul (show b.wpos + b.cap - b.rpos < 2 * b.cap by omega)]
    split_ifs at hsz ⊢ <;> omega
  · rw [mod_eq_if_of_lt_two_mul (by omega),
        mod_eq_if_of_lt_two_mul (show b.wpos + b.cap - b.rpos < 2 * b.cap by omega)]
    split_ifs at hsz ⊢ <;> omega

/-- A successful `get` decrements the stored count. -/
theorem rbuf_get_size {b : RBuf} (h : b.Inv) (he : rbuf_empty b = false) :
    (rbuf_get b).1.size = b.size - 1 := by
  rcases h with ⟨h1, h2, h3⟩
  have hne : b.rpos ≠ b.wpos := by simpa [rbuf_empty] using he
  rw [rbuf_get, if_neg (by simp [he])]
  simp only [RBuf.size]
  rw [mod_eq_if_of_lt_two_mul (show b.rpos + 1 < 2 * b.cap by omega)]
  split_ifs with hc
  · rw [mod_eq_if_of_lt_two_mul (by omega),
        mod_eq_if_of_lt_two_mul (show b.wpos + b.cap - b.rpos < 2 * b.cap by omega)]
    split_ifs <;> omega
  · rw [mod_eq_if_of_lt_two_mul (by omega),
        mod_eq_if_of_lt_two_mul (show b.wpos + b.cap - b.rpos < 2 * b.cap by omega)]
    split_ifs <;> omega

/-- A `put` on a non-full buffer succeeds, appends the byte to the abstract
contents, and preserves well-formedness. -/
theorem rbuf_put_spec {b : RBuf} (x : Nat) (h : b.Inv)
    (hf : rbuf_full b = false) :
    (rbuf_put b x).2 = true ∧
    (rbuf_put b x).1.contents = b.contents ++ [x] ∧
    (rbuf_put b x).1.Inv := by
  have hsz' : (rbuf_put b x).1.size = b.size + 1 := rbuf_put_size x h hf
  have hszlt : b.size < b.cap := RBuf.size_lt h
  have hw : (b.rpos + b.size) % b.cap = b.wpos := rpos_add_size h
  rcases h with ⟨h1, h2, h3⟩
  refine ⟨by rw [rbuf_put, if_neg (by simp [hf])], ?_, ?_⟩
  · rw [rbuf_put, if_neg (by simp [hf])] at hsz' ⊢
    simp only [RBuf.contents] at hsz' ⊢
    rw [hsz', List.range_succ b.size, List.map_append]
    congr 1
    · apply List.map_congr_left
      intro i hi
      rw [List.mem_range] at hi
      rw [if_neg]
      intro hEq
      have hieq : i = b.size := add_mod_inj (by omega) hszlt (hEq.trans hw.symm)
      omega
    · simp only [List.map_cons, List.map_nil, hw, if_pos]
  · rw [rbuf_put, if_neg (by simp [hf])]
    exact ⟨h1, Nat.mod_lt _ (by omega), h3⟩

/-- A `get` on a non-empty buffer returns the oldest byte, removes it from
the abstract contents, and preserves well-formedness. -/
theorem rbuf_get_spec {b : RBuf} (h : b.Inv) (he : rbuf_empty b = false) :
    (rbuf_get b).2 = some (b.data b.rpos) ∧
    b.contents = b.data b.rpos :: (rbuf_get b).1.contents ∧
    (rbuf_get b).1.Inv := by
  have hsz0 : b.size ≠ 0 := by
    intro h0
    have := (rbuf_empty_iff_size h).mpr h0
    rw [this] at he
    cases he
  have hszg : (rbuf_get b).1.size = b.size - 1 := rbuf_get_size h he
  rcases h with ⟨h1, h2, h3⟩
  refine ⟨by rw [rbuf_get, if_neg (by simp [he])], ?_, ?_⟩
  · rw [rbuf_get, if_neg (by simp [he])] at hszg ⊢
    simp only [RBuf.contents] at hszg ⊢
    rw [hszg]
    obtain ⟨k, hk⟩ : ∃ k, b.size = k + 1 := ⟨b.size - 1, by omega⟩
    rw [hk]
    simp only [Nat.add_sub_cancel]
    rw [List.range_succ_eq_map k]
    simp only [List.map_cons, List.map_map]
    congr 1
    · rw [Nat.add_zero, Nat.mod_eq_of_lt h3]
    · apply List.map_congr_left
      intro i hi
      simp only [Function.comp_apply]
      rw [Nat.mod_add_mod]
      have harg : b.rpos + Nat.succ i = b.rpos + 1 + i := by omega
      rw [harg]
  · rw [rbuf_get, if_neg (by simp [he])]
    exact ⟨h1, h2, Nat.mod_lt _ (by omega)⟩

/-- Trace invariant: the bytes already delivered to the consumer followed
by the bytes still stored equal the initial contents followed by the
accepted puts, in order; well-formedness is preserved. -/
theorem runOps_spec (ops : List ChanOp) : ∀ b : RBuf, b.Inv →
    (runOps b ops).2 ++ (runOps b ops).1.contents =
      b.contents ++ acceptedPuts b ops
    ∧ (runOps b ops).1.Inv := by
  induction ops with
  | nil => intro b hb; simpa [runOps, acceptedPuts] using hb
  | cons op ops ih =>
    intro b hb
    cases op with
    | put x =>
      simp only [runOps, acceptedPuts]
      cases hf : rbuf_full b with
      | true =>
        rw [rbuf_put_full x hf]
        obtain ⟨ih1, ih2⟩ := ih b hb
        simpa [ih1] using ih2
      | false =>
        obtain ⟨hp2, hpc, hpInv⟩ := rbuf_put_spec x hb hf
        obtain ⟨ih1, ih2⟩ := ih (rbuf_put b x).1 hpInv
        rw [hp2]
        refine ⟨?_, ih2⟩
        rw [ih1, hpc]
        simp
    | get =>
      simp only [runOps, acceptedPuts]
      cases he : rbuf_empty b with
      | true =>
        rw [rbuf_get_empty he]
        obtain ⟨ih1, ih2⟩ := ih b hb
        simpa [ih1] using ih2
      | false =>
        obtain ⟨hg2, hgc, hgInv⟩ := rbuf_get_spec hb he
        obtain ⟨ih1, ih2⟩ := ih (rbuf_get b).1 hgInv
        rw [hg2]
        refine ⟨?_, ih2⟩
        simp only [Option.toList_some, List.cons_append, List.append_assoc]
        rw [ih1, hgc]
        simp

/-- When the stored count plus the number of offered puts fits within the
usable capacity, no put overflows. -/
theorem acceptedPuts_all (ops : List ChanOp) : ∀ b : RBuf, b.Inv →
    b.size + putCount ops ≤ b.cap - 1 → acceptedPuts b ops = allPuts ops := by
  induction ops with
  | nil => intro b _ _; rfl
  | cons op ops ih =>
    intro b hb hle
    cases op with
    | put x =>
      simp only [putCount] at hle
      have hf : rbuf_full b = false := by
        rw [rbuf_full_false_iff hb]
        rcases hb with ⟨hb1, -, -⟩
        omega
      obtain ⟨hp2, -, hpInv⟩ := rbuf_put_spec x hb hf
      simp only [acceptedPuts, allPuts, hp2, if_pos, List.singleton_append]
      rw [ih (rbuf_put b x).1 hpInv
        (by rw [rbuf_put_size x hb hf, rbuf_put_cap]; omega)]
    | get =>
      simp only [putCount] at hle
      simp only [acceptedPuts, allPuts]
      cases he : rbuf_empty b with
      | true => rw [rbuf_get_empty he]; exact ih b hb hle
      | false =>
        have hgInv := (rbuf_get_spec hb he).2.2
        exact ih _ hgInv (by rw [rbuf_get_size hb he, rbuf_get_cap]; omega)

/-! ## Claim theorems: Ring buffer and byte channel -/

/-- C3: FIFO correctness of the ring buffer (modelled from the spec): over
any interleaving of producer puts and consumer gets, the delivered bytes
followed by the still-stored bytes are exactly the initial contents
followed by the accepted puts, in order (so an overflowing put loses
exactly the overflowing byte and every other byte is delivered in order);
`isEmpty` is true exactly when no byte is stored; and a sequence whose
put count fits within the usable capacity `U = cap - 1` suffers no
overflow. -/
theorem C3_ring_buffer_fifo (b : RBuf) (ops : List ChanOp) (hb : b.Inv) :
    ((runOps b ops).2 ++ (runOps b ops).1.contents =
      b.contents ++ acceptedPuts b ops)
    ∧ (rbuf_empty b = true ↔ b.contents = [])
    ∧ (b.contents.length + putCount ops ≤ b.cap - 1 →
        acceptedPuts b ops = allPuts ops) := by
  refine ⟨(runOps_spec ops b hb).1, rbuf_empty_iff_contents hb, fun hle => ?_⟩
  rw [RBuf.contents_length] at hle
  exact acceptedPuts_all ops b hb hle

/-- Closed instance of C3: two puts then two gets on an empty 4-slot
buffer deliver both bytes in order. -/
theorem C3_ring_buffer_fifo_witness :
    (runOps (RBuf.mk 4 (fun _ => 0) 0 0)
        [ChanOp.put 65, ChanOp.put 66, ChanOp.get, ChanOp.get]).2 ++
      (runOps (RBuf.mk 4 (fun _ => 0) 0 0)
        [ChanOp.put 65, ChanOp.put 66, ChanOp.get, ChanOp.get]).1.contents =
    (RBuf.mk 4 (fun _ => 0) 0 0).contents ++
      acceptedPuts (RBuf.mk 4 (fun _ => 0) 0 0)
        [ChanOp.put 65, ChanOp.put 66, ChanOp.get, ChanOp.get] :=
  (C3_ring_buffer_fifo (RBuf.mk 4 (fun _ => 0) 0 0)
    [ChanOp.put 65, ChanOp.put 66, ChanOp.get, ChanOp.get]
    ⟨by decide, by decide, by decide⟩).1

/-- C4: the byte-arrived interrupt handler performs exactly one put of the
received byte: on a full buffer it emits the diagnostic and leaves the
buffer unchanged; otherwise the byte is appended and no diagnostic is
emitted. -/
theorem C4_isr_spec (b : RBuf) (x : Nat) (hb : b.Inv) :
    (rbuf_full b = true → usart2_rx_isr b x = (b, true))
    ∧ (rbuf_full b = false →
        (usart2_rx_isr b x).1.contents = b.contents ++ [x] ∧
        (usart2_rx_isr b x).2 = false) := by
  constructor
  · intro hf
    show ((rbuf_put b x).1, !(rbuf_put b x).2) = (b, true)
    rw [rbuf_put_full x hf]
    rfl
  · intro hf
    obtain ⟨hp2, hpc, -⟩ := rbuf_put_spec x hb hf
    exact ⟨hpc, show (!(rbuf_put b x).2) = false by rw [hp2]; rfl⟩

/-- Closed instance of C4: a byte arriving at a full 2-slot buffer is
dropped with a diagnostic and the buffer is unchanged. -/
theorem C4_isr_spec_witness :
    usart2_rx_isr (RBuf.mk 2 (fun _ => 0) 1 0) 7 =
      (RBuf.mk 2 (fun _ => 0) 1 0, true) :=
  (C4_isr_spec (RBuf.mk 2 (fun _ => 0) 1 0) 7
    ⟨by decide, by decide, by decide⟩).1 (by decide)

/-- C6: `readByte` (`uart2_getchar`) is non-blocking, returns the sentinel
`-1` exactly when the inbound buffer is empty (leaving it unchanged), and
otherwise returns the oldest buffered byte while advancing the read
position. -/
theorem C6_getchar_spec (b : RBuf) (hb : b.Inv) :
    ((uart2_getchar b).2 = -1 ↔ b.contents = [])
    ∧ (b.contents = [] → (uart2_getchar b).1 = b)
    ∧ (∀ x rest, b.contents = x :: rest →
        (uart2_getchar b).2 = (x : Int) ∧
        (uart2_getchar b).1.contents = rest) := by
  cases he : rbuf_empty b with
  | true =>
    have hc : b.contents = [] := (rbuf_empty_iff_contents hb).mp he
    unfold uart2_getchar
    rw [if_pos he]
    refine ⟨by simp [hc], fun _ => rfl, fun x rest hxr => ?_⟩
    rw [hc] at hxr
    cases hxr
  | false =>
    have hcne : b.contents ≠ [] := fun hc => by
      have h2 := (rbuf_empty_iff_contents hb).mpr hc
      rw [h2] at he
      cases he
    obtain ⟨hg2, hgc, -⟩ := rbuf_get_spec hb he
    unfold uart2_getchar
    rw [if_neg (by simp [he])]
    simp only [hg2]
    refine ⟨⟨fun hcast => absurd hcast (by omega), fun hc => absurd hc hcne⟩,
            fun hc => absurd hc hcne, fun x rest hxr => ?_⟩
    rw [hgc] at hxr
    injection hxr with hx1 hx2
    exact ⟨by rw [hx1], by rw [← hx2]⟩

/-- Closed instance of C6: reading an empty buffer yields the sentinel. -/
theorem C6_getchar_spec_witness :
    (uart2_getchar (RBuf.mk 4 (fun _ => 0) 0 0)).2 = -1 :=
  (C6_getchar_spec (RBuf.mk 4 (fun _ => 0) 0 0)
    ⟨by decide, by decide, by decide⟩).1.mpr (by decide)

/-! ## Spin-wait lemmas -/

/-- If the spin loop terminates at tick `t`, the ready signal is true at
`t` and was false at every tick from the start of the loop until `t`. -/
theorem spinWait_some {ready : Nat → Bool} :
    ∀ (fuel i t : Nat), spinWait ready fuel i = some t →
      i ≤ t ∧ ready t = true ∧ ∀ j, i ≤ j → j < t → ready j = false := by
  intro fuel
  induction fuel with
  | zero => intro i t h; cases h
  | succ fuel ih =>
    intro i t h
    rw [spinWait] at h
    split at h
    · rename_i hr
      injection h with h0
      subst h0
      exact ⟨Nat.le_refl i, hr, fun j hj1 hj2 => absurd (Nat.lt_of_le_of_lt hj1 hj2) (lt_irrefl i)⟩
    · rename_i hr
      obtain ⟨ht1, ht2, ht3⟩ := ih (i + 1) t h
      refine ⟨by omega, ht2, fun j hj1 hj2 => ?_⟩
      rcases Nat.eq_or_lt_of_le hj1 with hji | hji
      · rw [← hji]
        exact Bool.not_eq_true _ ▸ (by simpa using hr)
      · exact ht3 j (by omega) hj2

/-- If the ready signal never becomes true, the spin loop never exits. -/
theorem spinWait_none {ready : Nat → Bool} (h : ∀ n, ready n = false) :
    ∀ fuel i, spinWait ready fuel i = none := by
  intro fuel
  induction fuel with
  | zero => intro i; rfl
  | succ fuel ih =>
    intro i
    rw [spinWait, if_neg (by simp [h i]), ih]

/-- C5: `writeByte` never hands a byte to the transport while the ready
signal is false: if it returns, the single write happened at the first tick
at which the signal was true and wrote exactly the requested byte; if the
signal never becomes true the loop never exits, whatever the observation
budget (no timeout path exists). -/
theorem C5_putchar_spec :
    (∀ (ready : Nat → Bool) (c fuel t b2 : Nat),
        uart2_putchar ready c fuel = some (t, b2) →
        ready t = true ∧ b2 = c ∧ ∀ j, j < t → ready j = false)
    ∧ (∀ (ready : Nat → Bool) (c fuel : Nat),
        (∀ n, ready n = false) → uart2_putchar ready c fuel = none) := by
  constructor
  · intro ready c fuel t b2 h
    unfold uart2_putchar at h
    cases hs : spinWait ready fuel 0 with
    | none => rw [hs] at h; cases h
    | some t0 =>
      rw [hs] at h
      obtain ⟨-, hw2, hw3⟩ := spinWait_some fuel 0 t0 hs
      have hte : t0 = t ∧ c = b2 := by
        simpa [Prod.ext_iff] using h
      obtain ⟨rfl, rfl⟩ := hte
      exact ⟨hw2, rfl, fun j hj => hw3 j (Nat.zero_le j) hj⟩
  · intro ready c fuel hnever
    unfold uart2_putchar
    rw [spinWait_none hnever fuel 0]
    rfl

/-- Closed instance of C5: with a signal that first becomes ready at tick
2, the write happens at a tick where the signal is true. -/
theorem C5_putchar_spec_witness : (fun n : Nat => n == 2) 2 = true :=
  (C5_putchar_spec.1 (fun n : Nat => n == 2) 65 5 2 65 (by decide)).1

end Prusa
